import Mathlib

/-!
Verification development for the Steam price-history ingestion pipeline
(`steam_price_history.py`): the candidate selector (`get_top_apps`), the
identity resolver (`get_itad_id`), the partitioned parquet merge store
(`write_parquet`) and the run orchestrator (`main`).

The embedding is shallow: pandas dataframes become lists of rows, the
filesystem becomes a partial map from partition addresses to row lists,
and the per-item control flow of `main` becomes a fold over outcomes.
-/

namespace SteamPriceHistory

/-- A UTC instant, represented by its calendar year (the component
`df["timestamp"].dt.year` projects out) and a residual offset
distinguishing instants within the same year. -/
structure Timestamp where
  year : Int
  offset : Nat
deriving DecidableEq, Repr

/-- One normalized price observation as built by `get_price_history`
(lines 188-195): timestamp plus the deal fields, any of which may be
missing in the raw JSON. -/
structure Record where
  timestamp : Timestamp
  price_usd : Option Int
  regular_usd : Option Int
  cut_pct : Option Int
  shop_id : Option Int
  shop_name : String
deriving DecidableEq, Repr

/-- A row of the dataframe written to parquet: a `Record` extended with the
`appid` and `year` columns added in `write_parquet` (lines 210-211). -/
structure Row where
  timestamp : Timestamp
  price_usd : Option Int
  regular_usd : Option Int
  cut_pct : Option Int
  shop_id : Option Int
  shop_name : String
  appid : Int
  year : Int
deriving DecidableEq, Repr

/-- `df["appid"] = appid; df["year"] = df["timestamp"].dt.year`. -/
def toRow (appid : Int) (r : Record) : Row :=
  { timestamp := r.timestamp, price_usd := r.price_usd,
    regular_usd := r.regular_usd, cut_pct := r.cut_pct,
    shop_id := r.shop_id, shop_name := r.shop_name,
    appid := appid, year := r.timestamp.year }

/-- The column subset `["timestamp", "shop_id"]` that
`drop_duplicates` deduplicates on (line 222). -/
def keyOf (r : Row) : Timestamp × Option Int := (r.timestamp, r.shop_id)

/-- The same deduplication key read off an input record. -/
def recordKey (r : Record) : Timestamp × Option Int := (r.timestamp, r.shop_id)

/-- The full deduplication key named by the spec:
`(timestamp, shop_id, native_id)`. -/
def fullKey (r : Row) : Timestamp × Option Int × Int :=
  (r.timestamp, r.shop_id, r.appid)

/-- The storage address of one partition:
`os.path.join(output_dir, "year=<year>", "id=<appid>", "data.parquet")`
(lines 215-217).  Path rendering is injective on these components, so the
filesystem is keyed by the components themselves. -/
structure Address where
  dir : String
  year : Int
  appid : Int
deriving DecidableEq, Repr

/-- The rendered file path of a partition address. -/
def pathString (a : Address) : String :=
  a.dir ++ "/year=" ++ toString a.year ++ "/id=" ++ toString a.appid
    ++ "/data.parquet"

/-- The filesystem under the output directory: each partition address
holds either nothing (`os.path.exists` false) or the rows of its
`data.parquet`. -/
def Store : Type := Address → Option (List Row)

/-- `group.to_parquet(out_file)`: replace the file at `a` with `rows`. -/
def updateStore (s : Store) (a : Address) (rows : List Row) : Store :=
  fun b => if b = a then some rows else s b

/-- A filesystem with no partitions at all. -/
def emptyStore : Store := fun _ => none

/-- Worker for `drop_duplicates(subset=["timestamp", "shop_id"])` with the
pandas default `keep="first"`: keep a row iff its key was not seen in an
earlier row. -/
def dropDupAux (seen : List (Timestamp × Option Int)) : List Row → List Row
  | [] => []
  | r :: rs =>
    if keyOf r ∈ seen then dropDupAux seen rs
    else r :: dropDupAux (keyOf r :: seen) rs

/-- `group.drop_duplicates(subset=["timestamp", "shop_id"])` (line 222). -/
def drop_duplicates (l : List Row) : List Row := dropDupAux [] l

/-- Stable insertion: `x` goes in front of the first element it compares
`le` to, so among elements comparing equal the earlier-inserted one stays
first.  This models the stability guarantee of Python `list.sort`. -/
def insertBy {α : Type} (le : α → α → Bool) (x : α) : List α → List α
  | [] => [x]
  | h :: t => if le x h then x :: h :: t else h :: insertBy le x t

/-- Stable sort by the boolean comparison `le`, as performed by Python
`list.sort(key=..., reverse=...)` (line 106: the comparison already folds
in `reverse=True`). -/
def sortBy {α : Type} (le : α → α → Bool) : List α → List α
  | [] => []
  | x :: xs => insertBy le x (sortBy le xs)

/-- The distinct partition years of a batch, ascending: `df.groupby("year")`
iterates group keys sorted ascending (pandas default `sort=True`), one
group per distinct year. -/
def batchYears (records : List Record) : List Int :=
  sortBy (fun a b => decide (a ≤ b))
    ((records.map fun r => r.timestamp.year).dedup)

/-- The body of the existence check in lines 219-222: merge with the
existing file when there is one (concatenate existing rows first, then
drop duplicate `(timestamp, shop_id)` keys keeping the first occurrence);
otherwise the group is written as is, with no deduplication. -/
def mergeGroup (old : Option (List Row)) (group : List Row) : List Row :=
  match old with
  | some existing => drop_duplicates (existing ++ group)
  | none => group

/-- The `for year, group in df.groupby("year")` loop of lines 214-225:
for each year, read the current file at the partition address, merge, and
write back, incrementing the `written` counter. -/
def writeFold (dir : String) (appid : Int) (df : List Row) :
    List Int → Store × Nat → Store × Nat
  | [], acc => acc
  | y :: ys, (s, n) =>
    let a : Address := ⟨dir, y, appid⟩
    let group := df.filter fun r => r.year = y
    writeFold dir appid df ys
      (updateStore s a (mergeGroup (s a) group), n + 1)

/-- `write_parquet(appid, records, output_dir)` over a starting filesystem:
returns the updated filesystem and the number of partition files written
(lines 205-227). -/
def write_parquet (appid : Int) (records : List Record) (output_dir : String)
    (store : Store) : Store × Nat :=
  if records.isEmpty then (store, 0)
  else
    let df := records.map (toRow appid)
    writeFold output_dir appid df (batchYears records) (store, 0)

/-- One entry of the SteamSpy `all` response: appid plus review counts,
either of which may be missing or null (`v.get("positive") or 0`). -/
structure SpyEntry where
  appid : Int
  positive : Option Int
  negative : Option Int
  name : String
deriving DecidableEq, Repr

/-- One element of the `apps` list built in `get_top_apps`
(lines 100-104). -/
structure App where
  appid : Int
  name : String
  total_reviews : Int
deriving DecidableEq, Repr

/-- `{"appid": int(appid_str), "name": v.get("name", ""),
"total_reviews": pos + neg}` with missing counts defaulting to 0. -/
def mkApp (e : SpyEntry) : App :=
  { appid := e.appid, name := e.name,
    total_reviews := e.positive.getD 0 + e.negative.getD 0 }

/-- The comparison realized by
`apps.sort(key=lambda x: x["total_reviews"], reverse=True)`: Python sort
is stable, so an earlier element stays in front of a later one whenever
its key is greater or equal. -/
def appGE (a b : App) : Bool := decide (b.total_reviews ≤ a.total_reviews)

/-- `get_top_apps(n)` applied to the SteamSpy response body `data`,
in its JSON object order: build the apps list, stable-sort by
`total_reviews` descending, and return the first `n` (lines 87-108). -/
def get_top_apps (n : Nat) (data : List SpyEntry) : List App :=
  (sortBy appGE (data.map mkApp)).take n

/-- Modelled from the spec: the selector ordering the spec describes,
popularity descending with ties broken by `native_id` ascending
("Ranks by popularity_score descending; ties broken by native_id
ascending for determinism").  Used only to compare against
`get_top_apps`. -/
def claimed_top_apps (n : Nat) (data : List SpyEntry) : List App :=
  (sortBy
    (fun a b => decide (b.total_reviews < a.total_reviews) ||
      (decide (a.total_reviews = b.total_reviews) && decide (a.appid ≤ b.appid)))
    (data.map mkApp)).take n

/-- The sequence of intermediate file contents during the direct
overwrite `group.to_parquet(out_file, ...)` (line 224): the target file
itself is opened and truncated, then the new bytes are streamed in, so an
interruption can expose the untouched old file or any prefix of the new
bytes.  No temporary file or rename is involved. -/
def directWriteCrashStates (old new : List Nat) : List (List Nat) :=
  old :: (List.range (new.length + 1)).map fun k => new.take k

/-- The possible outcomes of the single ITAD lookup call made by
`get_itad_id` (lines 136-146), as the function body observes them. -/
inductive LookupResponse where
  /-- HTTP 200 with a JSON body carrying `found` and `game.id`. -/
  | ok (found : Bool) (gameId : String)
  /-- A non-200 status code (line 141). -/
  | httpStatus (code : Nat)
  /-- `SESSION.get` raised after the urllib3 `Retry` adapter exhausted its
  retries on transient errors (429/5xx/network). -/
  | transientExhausted
  /-- Any other exception raised inside the `try` block. -/
  | otherException
deriving DecidableEq, Repr

/-- `get_itad_id` (lines 134-149): only a 200 response with
`found == true` yields an id; a non-200 status, a `found == false` body,
and every raised exception — including transient-error retry
exhaustion — fall through the broad `except` to `return None`. -/
def get_itad_id (resp : LookupResponse) : Option String :=
  match resp with
  | .ok found gameId => if found then some gameId else none
  | .httpStatus _ => none
  | .transientExhausted => none
  | .otherException => none

/-- What `get_price_history` does for one item as `main` observes it:
either it returns a (possibly empty) record list — all fetch and per-entry
parse errors are swallowed inside it — or iterating the decoded JSON
raises (line 180 sits outside the `try` block) and the exception escapes
to the orchestrator. -/
inductive HistResult where
  | entries (records : List Record)
  | raises
deriving DecidableEq, Repr

/-- The environment one candidate item presents to the `main` loop body:
the `is_game` verdict (that function catches its own exceptions and
returns a Bool), the ITAD lookup outcome, the history-fetch behaviour,
and whether `write_parquet` raises (disk errors and the like). -/
structure ItemEnv where
  itemIsGame : Bool
  lookup : LookupResponse
  hist : HistResult
  writeRaises : Bool
deriving DecidableEq, Repr

/-- The `stats` dictionary of `main` (lines 266-267). -/
structure Stats where
  procesados : Nat
  sin_itad_id : Nat
  sin_historial : Nat
  parquets_escritos : Nat
  errores : Nat
deriving DecidableEq, Repr

/-- The control-flow outcome of the per-item `try` body in `main`
(lines 273-299). -/
inductive Outcome where
  /-- `is_game` returned false with the check enabled: `continue` before
  any counter is touched (lines 275-278). -/
  | filtered
  /-- `get_itad_id` returned `None` (lines 282-286). -/
  | noId
  /-- `get_price_history` returned `[]` (lines 289-293). -/
  | noHist
  /-- iterating the history response raised; caught by the `except` of
  line 301. -/
  | raisedFetch
  /-- `write_parquet` raised; caught by the `except` of line 301. -/
  | raisedWrite (records : List Record)
  /-- the item was written: `parquets_escritos += written;
  procesados += 1` (lines 297-299). -/
  | wrote (records : List Record)
deriving DecidableEq, Repr

/-- Which branch of the `main` loop body the item's environment drives
execution into. -/
def bodyOutcome (skipGameCheck : Bool) (e : ItemEnv) : Outcome :=
  if !skipGameCheck && !e.itemIsGame then .filtered
  else
    match get_itad_id e.lookup with
    | none => .noId
    | some _ =>
      match e.hist with
      | .raises => .raisedFetch
      | .entries records =>
        if records.isEmpty then .noHist
        else if e.writeRaises then .raisedWrite records
        else .wrote records

/-- Whether the branch corresponds to an exception reaching the
orchestrator's per-item `except` handler. -/
def Outcome.isError : Outcome → Bool
  | .raisedFetch => true
  | .raisedWrite _ => true
  | _ => false

/-- The effect of one iteration of the `main` loop (lines 269-305) on the
statistics and the output filesystem.  A `write_parquet` failure is
modelled as raising before any partition is replaced. -/
def processItem (skipGameCheck : Bool) (dir : String) (appid : Int)
    (e : ItemEnv) : Stats × Store → Stats × Store :=
  fun acc =>
    match bodyOutcome skipGameCheck e with
    | .filtered => acc
    | .noId => ({ acc.1 with sin_itad_id := acc.1.sin_itad_id + 1 }, acc.2)
    | .noHist => ({ acc.1 with sin_historial := acc.1.sin_historial + 1 }, acc.2)
    | .raisedFetch => ({ acc.1 with errores := acc.1.errores + 1 }, acc.2)
    | .raisedWrite _ => ({ acc.1 with errores := acc.1.errores + 1 }, acc.2)
    | .wrote records =>
      let out := write_parquet appid records dir acc.2
      ({ acc.1 with parquets_escritos := acc.1.parquets_escritos + out.2,
                    procesados := acc.1.procesados + 1 }, out.1)

/-- The `for app in apps` loop of `main`, driven by a per-item
environment: each candidate appid is processed in order and the
statistics and filesystem are threaded through. -/
def runMain (skipGameCheck : Bool) (dir : String) (env : Int → ItemEnv) :
    List Int → Stats × Store → Stats × Store
  | [], acc => acc
  | appid :: rest, acc =>
    runMain skipGameCheck dir env rest (processItem skipGameCheck dir appid (env appid) acc)

/-- The zero-initialised statistics of line 266. -/
def initStats : Stats :=
  { procesados := 0, sin_itad_id := 0, sin_historial := 0,
    parquets_escritos := 0, errores := 0 }

/-- A sample instant in calendar year 2023. -/
def ts1 : Timestamp := ⟨2023, 0⟩

/-- A second, distinct instant in calendar year 2023. -/
def ts2 : Timestamp := ⟨2023, 5⟩

/-- A sample record at `ts1` for shop 61. -/
def exR1 : Record := ⟨ts1, some 500, some 1000, some 50, some 61, "Steam"⟩

/-- A record with the same `(timestamp, shop_id)` key as `exR1` but a
different price. -/
def exR2 : Record := ⟨ts1, some 900, some 1000, some 10, some 61, "Steam"⟩

/-- A record with a key distinct from `exR1`. -/
def exR3 : Record := ⟨ts2, some 700, some 1000, some 30, some 61, "Steam"⟩

/-- A filesystem already holding one partition for year 2023, appid 1. -/
def store1 : Store := updateStore emptyStore ⟨"h", 2023, 1⟩ [toRow 1 exR1]

/-- SteamSpy entry for appid 20 with 500 total reviews. -/
def spyTie20 : SpyEntry := ⟨20, some 500, some 0, "B"⟩

/-- SteamSpy entry for appid 10, tied at 500 total reviews. -/
def spyTie10 : SpyEntry := ⟨10, some 500, some 0, "A"⟩

/-- An item whose history fetch raises past the fetch boundary. -/
def envRaise : ItemEnv := ⟨true, .ok true "g", .raises, false⟩

/-- An item that resolves and yields one record. -/
def envFound : ItemEnv := ⟨true, .ok true "g", .entries [exR1], false⟩

/-- A candidate environment where item 7 raises and every other item
succeeds. -/
def exEnv : Int → ItemEnv := fun i => if i = 7 then envRaise else envFound

/-- An item whose ITAD lookup raises after the retry adapter exhausted
its retries on transient errors. -/
def envTransient : ItemEnv := ⟨true, .transientExhausted, .entries [], false⟩

/-- An item rejected by the `is_game` pre-filter. -/
def envNotGame : ItemEnv := ⟨false, .ok true "g", .entries [], false⟩

theorem mem_of_mem_dropDupAux {seen : List (Timestamp × Option Int)}
    {l : List Row} {r : Row} (h : r ∈ dropDupAux seen l) : r ∈ l := by
  induction l generalizing seen with
  | nil => simp only [dropDupAux] at h; cases h
  | cons x xs ih =>
    by_cases hx : keyOf x ∈ seen
    · simp only [dropDupAux, if_pos hx] at h
      exact List.mem_cons_of_mem _ (ih h)
    · simp only [dropDupAux, if_neg hx, List.mem_cons] at h
      rcases h with h | h
      · exact h ▸ List.mem_cons_self _ _
      · exact List.mem_cons_of_mem _ (ih h)

theorem dropDupAux_keys_nodup_disjoint (seen : List (Timestamp × Option Int))
    (l : List Row) :
    ((dropDupAux seen l).map keyOf).Nodup ∧
      ∀ k ∈ (dropDupAux seen l).map keyOf, k ∉ seen := by
  induction l generalizing seen with
  | nil => simp [dropDupAux]
  | cons x xs ih =>
    by_cases hx : keyOf x ∈ seen
    · simpa [dropDupAux, if_pos hx] using ih seen
    · have h := ih (keyOf x :: seen)
      simp only [dropDupAux, if_neg hx, List.map_cons, List.nodup_cons]
      refine ⟨⟨fun hmem => ?_, h.1⟩, ?_⟩
      · exact (h.2 _ hmem) (List.mem_cons_self _ _)
      · intro k hk
        simp only [List.mem_cons] at hk
        rcases hk with hk | hk
        · exact hk ▸ hx
        · intro hks
          exact (h.2 _ hk) (List.mem_cons_of_mem _ hks)

theorem key_mem_dropDupAux {seen : List (Timestamp × Option Int)}
    {l : List Row} {r : Row} (hr : r ∈ l) (hs : keyOf r ∉ seen) :
    keyOf r ∈ (dropDupAux seen l).map keyOf := by
  induction l generalizing seen with
  | nil => cases hr
  | cons x xs ih =>
    by_cases hx : keyOf x ∈ seen
    · have hrx : r ∈ xs := by
        rcases List.mem_cons.mp hr with h | h
        · exact absurd (h ▸ hx) hs
        · exact h
      simpa [dropDupAux, if_pos hx] using ih hrx hs
    · simp only [dropDupAux, if_neg hx, List.map_cons, List.mem_cons]
      by_cases hkey : keyOf r = keyOf x
      · exact Or.inl hkey
      · rcases List.mem_cons.mp hr with h | h
        · exact absurd (congrArg keyOf h) hkey
        · refine Or.inr (ih h ?_)
          intro hmem
          rcases List.mem_cons.mp hmem with hc | hc
          · exact hkey hc
          · exact hs hc

theorem dropDupAux_eq_self {seen : List (Timestamp × Option Int)}
    {l : List Row} (hn : (l.map keyOf).Nodup)
    (hd : ∀ k ∈ l.map keyOf, k ∉ seen) : dropDupAux seen l = l := by
  induction l generalizing seen with
  | nil => rfl
  | cons x xs ih =>
    simp only [List.map_cons, List.nodup_cons] at hn
    have hx : keyOf x ∉ seen := hd _ (by simp)
    simp only [dropDupAux, if_neg hx]
    refine congrArg (x :: ·) (ih hn.2 ?_)
    intro k hk
    simp only [List.mem_cons]
    rintro (h | h)
    · exact hn.1 (h ▸ hk)
    · exact hd k (List.mem_cons_of_mem _ hk) h

theorem dropDupAux_eq_nil {seen : List (Timestamp × Option Int)}
    {l : List Row} (h : ∀ r ∈ l, keyOf r ∈ seen) : dropDupAux seen l = [] := by
  induction l with
  | nil => rfl
  | cons x xs ih =>
    have hx : keyOf x ∈ seen := h _ (List.mem_cons_self _ _)
    simp only [dropDupAux, if_pos hx]
    exact ih fun r hr => h r (List.mem_cons_of_mem _ hr)

theorem dropDupAux_append_absorb {seen : List (Timestamp × Option Int)}
    {a b : List Row}
    (h : ∀ r ∈ b, keyOf r ∈ seen ∨ keyOf r ∈ a.map keyOf) :
    dropDupAux seen (a ++ b) = dropDupAux seen a := by
  induction a generalizing seen with
  | nil =>
    simp only [List.nil_append, dropDupAux]
    exact dropDupAux_eq_nil fun r hr => by
      rcases h r hr with hs | hs
      · exact hs
      · simp at hs
  | cons x xs ih =>
    by_cases hx : keyOf x ∈ seen
    · simp only [List.cons_append, dropDupAux, if_pos hx]
      refine ih ?_
      intro r hr
      rcases h r hr with hs | hs
      · exact Or.inl hs
      · simp only [List.map_cons, List.mem_cons] at hs
        rcases hs with hs | hs
        · exact Or.inl (hs ▸ hx)
        · exact Or.inr hs
    · simp only [List.cons_append, dropDupAux, if_neg hx]
      refine congrArg (x :: ·) (ih ?_)
      intro r hr
      rcases h r hr with hs | hs
      · exact Or.inl (List.mem_cons_of_mem _ hs)
      · simp only [List.map_cons, List.mem_cons] at hs
        rcases hs with hs | hs
        · exact Or.inl (hs ▸ List.mem_cons_self _ _)
        · exact Or.inr hs

theorem drop_duplicates_keys_nodup (l : List Row) :
    ((drop_duplicates l).map keyOf).Nodup :=
  (dropDupAux_keys_nodup_disjoint [] l).1

theorem drop_duplicates_of_keys_nodup {l : List Row}
    (h : (l.map keyOf).Nodup) : drop_duplicates l = l :=
  dropDupAux_eq_self h (by simp)

theorem mem_of_mem_drop_duplicates {l : List Row} {r : Row}
    (h : r ∈ drop_duplicates l) : r ∈ l :=
  mem_of_mem_dropDupAux h

theorem key_mem_drop_duplicates {l : List Row} {r : Row} (hr : r ∈ l) :
    keyOf r ∈ (drop_duplicates l).map keyOf :=
  key_mem_dropDupAux hr (by simp)

theorem insertBy_perm {α : Type} (le : α → α → Bool) (x : α) (l : List α) :
    List.Perm (insertBy le x l) (x :: l) := by
  induction l with
  | nil => rfl
  | cons h t ih =>
    by_cases hle : le x h
    · simp [insertBy, hle]
    · simp only [insertBy, if_neg hle]
      exact (List.Perm.cons h ih).trans (List.Perm.swap x h t)

theorem sortBy_perm {α : Type} (le : α → α → Bool) (l : List α) :
    List.Perm (sortBy le l) l := by
  induction l with
  | nil => rfl
  | cons x xs ih =>
    exact (insertBy_perm le x (sortBy le xs)).trans (List.Perm.cons x ih)

theorem mem_sortBy {α : Type} {le : α → α → Bool} {x : α} {l : List α} :
    x ∈ sortBy le l ↔ x ∈ l :=
  (sortBy_perm le l).mem_iff

theorem length_sortBy {α : Type} (le : α → α → Bool) (l : List α) :
    (sortBy le l).length = l.length :=
  (sortBy_perm le l).length_eq

theorem nodup_sortBy {α : Type} {le : α → α → Bool} {l : List α}
    (h : l.Nodup) : (sortBy le l).Nodup :=
  ((sortBy_perm le l).nodup_iff).mpr h

theorem pairwise_insertBy {α : Type} {le : α → α → Bool}
    (htot : ∀ a b, le a b = true ∨ le b a = true)
    (htrans : ∀ a b c, le a b = true → le b c = true → le a c = true)
    {x : α} {l : List α} (h : l.Pairwise fun a b => le a b = true) :
    (insertBy le x l).Pairwise fun a b => le a b = true := by
  induction l with
  | nil => simp [insertBy]
  | cons y t ih =>
    rcases List.pairwise_cons.mp h with ⟨hy, ht⟩
    by_cases hle : le x y
    · simp only [insertBy, if_pos hle, List.pairwise_cons, List.mem_cons]
      refine ⟨?_, hy, ht⟩
      rintro b (rfl | hb)
      · exact hle
      · exact htrans x y b hle (hy b hb)
    · have hyx : le y x = true := by
        rcases htot x y with hc | hc
        · exact absurd hc hle
        · exact hc
      simp only [insertBy, if_neg hle, List.pairwise_cons]
      refine ⟨?_, ih ht⟩
      intro b hb
      rcases List.mem_cons.mp ((insertBy_perm le x t).mem_iff.mp hb) with h1 | h1
      · exact h1 ▸ hyx
      · exact hy b h1

theorem pairwise_sortBy {α : Type} {le : α → α → Bool}
    (htot : ∀ a b, le a b = true ∨ le b a = true)
    (htrans : ∀ a b c, le a b = true → le b c = true → le a c = true)
    (l : List α) : (sortBy le l).Pairwise fun a b => le a b = true := by
  induction l with
  | nil => exact List.Pairwise.nil
  | cons x xs ih => exact pairwise_insertBy htot htrans ih

theorem batchYears_nodup (records : List Record) :
    (batchYears records).Nodup :=
  nodup_sortBy (List.nodup_dedup _)

theorem mem_batchYears {records : List Record} {y : Int} :
    y ∈ batchYears records ↔ y ∈ records.map fun r => r.timestamp.year := by
  unfold batchYears
  rw [mem_sortBy, List.mem_dedup]

theorem writeFold_frame {dir : String} {appid : Int} {df : List Row}
    {ys : List Int} {acc : Store × Nat} {a : Address}
    (h : ∀ y ∈ ys, Address.mk dir y appid ≠ a) :
    (writeFold dir appid df ys acc).1 a = acc.1 a := by
  induction ys generalizing acc with
  | nil => rfl
  | cons y t ih =>
    obtain ⟨s, n⟩ := acc
    simp only [writeFold]
    rw [ih fun z hz => h z (List.mem_cons_of_mem _ hz)]
    simp only [updateStore]
    rw [if_neg]
    intro hc
    exact h y (List.mem_cons_self _ _) hc.symm

theorem writeFold_apply {dir : String} {appid : Int} {df : List Row}
    {ys : List Int} {s : Store} {n : Nat} {y : Int}
    (hnd : ys.Nodup) (hy : y ∈ ys) :
    (writeFold dir appid df ys (s, n)).1 ⟨dir, y, appid⟩ =
      some (mergeGroup (s ⟨dir, y, appid⟩) (df.filter fun r => r.year = y)) := by
  induction ys generalizing s n with
  | nil => cases hy
  | cons z t ih =>
    rcases List.nodup_cons.mp hnd with ⟨hz, hnt⟩
    rcases List.mem_cons.mp hy with rfl | hyt
    · simp only [writeFold]
      rw [writeFold_frame]
      · simp [updateStore]
      · intro w hw hc
        injection hc with h1 h2 h3
        exact hz (h2 ▸ hw)
    · simp only [writeFold]
      rw [ih hnt hyt]
      have hne : (⟨dir, y, appid⟩ : Address) ≠ ⟨dir, z, appid⟩ := by
        intro hc
        injection hc with h1 h2 h3
        exact hz (h2 ▸ hyt)
      simp [updateStore, hne]

theorem writeFold_isSome {dir : String} {appid : Int} {df : List Row}
    {ys : List Int} {acc : Store × Nat} {a : Address}
    (h : (acc.1 a).isSome) : ((writeFold dir appid df ys acc).1 a).isSome := by
  induction ys generalizing acc with
  | nil => exact h
  | cons y t ih =>
    obtain ⟨s, n⟩ := acc
    simp only [writeFold]
    refine ih ?_
    simp only [updateStore]
    by_cases hc : a = (⟨dir, y, appid⟩ : Address)
    · simp [hc]
    · simpa [hc] using h

theorem mem_mergeGroup {old : Option (List Row)} {group : List Row} {r : Row}
    (h : r ∈ mergeGroup old group) : r ∈ old.getD [] ∨ r ∈ group := by
  cases old with
  | none => exact Or.inr h
  | some existing =>
    have := mem_of_mem_drop_duplicates h
    simpa using List.mem_append.mp this

theorem writeFold_row_origin {dir : String} {appid : Int} {df : List Row}
    {ys : List Int} {s : Store} {n : Nat} {a : Address} {r : Row}
    (h : r ∈ ((writeFold dir appid df ys (s, n)).1 a).getD []) :
    r ∈ (s a).getD [] ∨ (r ∈ df ∧ a = ⟨dir, r.year, appid⟩) := by
  induction ys generalizing s n with
  | nil => exact Or.inl h
  | cons y t ih =>
    simp only [writeFold] at h
    rcases ih h with h' | h'
    · simp only [updateStore] at h'
      by_cases hc : a = (⟨dir, y, appid⟩ : Address)
      · rw [if_pos hc] at h'
        simp only [Option.getD_some] at h'
        rcases mem_mergeGroup h' with hm | hm
        · exact Or.inl (hc ▸ hm)
        · rcases List.mem_filter.mp hm with ⟨hdf, hyear⟩
          refine Or.inr ⟨hdf, ?_⟩
          have : r.year = y := by simpa using hyear
          rw [hc, this]
      · rw [if_neg hc] at h'
        exact Or.inl h'
    · exact Or.inr h'

theorem keyOf_toRow (appid : Int) (r : Record) :
    keyOf (toRow appid r) = recordKey r := rfl

theorem appid_of_mem_map {appid : Int} {records : List Record} {r : Row}
    (h : r ∈ records.map (toRow appid)) : r.appid = appid := by
  rcases List.mem_map.mp h with ⟨s, hs, rfl⟩
  rfl

theorem write_parquet_apply {appid : Int} {records : List Record}
    {dir : String} {store : Store} {y : Int} (hy : y ∈ batchYears records) :
    (write_parquet appid records dir store).1 ⟨dir, y, appid⟩ =
      some (mergeGroup (store ⟨dir, y, appid⟩)
        ((records.map (toRow appid)).filter fun r => r.year = y)) := by
  cases records with
  | nil => exact absurd hy (by simp [batchYears, sortBy])
  | cons r rs =>
    unfold write_parquet
    rw [if_neg (by simp)]
    exact writeFold_apply (batchYears_nodup _) hy

theorem write_parquet_frame {appid : Int} {records : List Record}
    {dir : String} {store : Store} {a : Address}
    (h : a.dir ≠ dir ∨ a.appid ≠ appid ∨ a.year ∉ batchYears records) :
    (write_parquet appid records dir store).1 a = store a := by
  cases records with
  | nil => rfl
  | cons r rs =>
    unfold write_parquet
    rw [if_neg (by simp)]
    refine writeFold_frame ?_
    intro y hy hc
    obtain ⟨ad, ay, aid⟩ := a
    injection hc with h1 h2 h3
    rcases h with h2' | h2' | h2'
    · exact h2' h1.symm
    · exact h2' h3.symm
    · exact h2' (h2 ▸ hy)

theorem write_parquet_isSome {appid : Int} {records : List Record}
    {dir : String} {store : Store} {a : Address} (h : (store a).isSome) :
    ((write_parquet appid records dir store).1 a).isSome := by
  cases records with
  | nil => exact h
  | cons r rs =>
    unfold write_parquet
    rw [if_neg (by simp)]
    exact writeFold_isSome h

theorem group_keys_nodup {appid : Int} {records : List Record} {y : Int}
    (hk : (records.map recordKey).Nodup) :
    ((((records.map (toRow appid)).filter fun r => r.year = y)).map keyOf).Nodup := by
  have hsub : List.Sublist
      ((((records.map (toRow appid)).filter fun r => r.year = y)).map keyOf)
      ((records.map (toRow appid)).map keyOf) :=
    (List.filter_sublist _).map keyOf
  have hmap : (records.map (toRow appid)).map keyOf = records.map recordKey := by
    rw [List.map_map]
    exact List.map_congr_left fun r _ => rfl
  exact List.Nodup.sublist (hmap ▸ hsub) hk

theorem drop_duplicates_append_of_keys_subset {c g : List Row}
    (hn : (c.map keyOf).Nodup) (hsub : ∀ r ∈ g, keyOf r ∈ c.map keyOf) :
    drop_duplicates (c ++ g) = c := by
  unfold drop_duplicates
  rw [dropDupAux_append_absorb fun r hr => Or.inr (hsub r hr)]
  exact dropDupAux_eq_self hn (by simp)

theorem mergeGroup_idem {old : Option (List Row)} {g : List Row}
    (hg : (g.map keyOf).Nodup) :
    drop_duplicates (mergeGroup old g ++ g) = mergeGroup old g := by
  cases old with
  | none =>
    exact drop_duplicates_append_of_keys_subset hg
      fun r hr => List.mem_map_of_mem keyOf hr
  | some existing =>
    refine drop_duplicates_append_of_keys_subset
      (drop_duplicates_keys_nodup _) ?_
    intro r hr
    exact key_mem_drop_duplicates (List.mem_append.mpr (Or.inr hr))

theorem processItem_isSome {skip : Bool} {dir : String} {appid : Int}
    {e : ItemEnv} {acc : Stats × Store} {a : Address}
    (h : (acc.2 a).isSome) : ((processItem skip dir appid e acc).2 a).isSome := by
  unfold processItem
  cases hb : bodyOutcome skip e with
  | wrote records => exact write_parquet_isSome h
  | filtered => exact h
  | noId => exact h
  | noHist => exact h
  | raisedFetch => exact h
  | raisedWrite records => exact h

theorem runMain_isSome {skip : Bool} {dir : String} {env : Int → ItemEnv}
    {apps : List Int} {acc : Stats × Store} {a : Address}
    (h : (acc.2 a).isSome) : ((runMain skip dir env apps acc).2 a).isSome := by
  induction apps generalizing acc with
  | nil => exact h
  | cons x xs ih => exact ih (processItem_isSome h)

/-- C1 counterexample: the claim fails as stated.  On a fresh partition
(`os.path.exists` false) `write_parquet` skips deduplication entirely, so
a batch holding two records with the same `(timestamp, shop_id)` key (and
the same `native_id`) is stored with both rows. -/
theorem C1_counterexample :
    ¬ ((((write_parquet 1 [exR1, exR2] "h" emptyStore).1
        ⟨"h", 2023, 1⟩).getD []).map keyOf).Nodup := by
  decide

/-- C1 (amended): provided the input batch contains no two records sharing
the deduplication key `(timestamp, shop_id)` — `native_id` is the constant
`appid` of the call, so this is the full key — every partition stored by
`write_parquet` contains no two rows sharing the key, for any prior
partition contents. -/
theorem C1_write_dedup_of_key_nodup
    (appid : Int) (records : List Record) (dir : String) (store : Store)
    (hk : (records.map recordKey).Nodup) (y : Int)
    (hy : y ∈ batchYears records) :
    ((((write_parquet appid records dir store).1 ⟨dir, y, appid⟩).getD []).map
      keyOf).Nodup := by
  rw [@write_parquet_apply appid records dir store y hy, Option.getD_some]
  cases hst : store ⟨dir, y, appid⟩ with
  | some existing => exact drop_duplicates_keys_nodup _
  | none => exact group_keys_nodup hk

/-- Witness for C1 at a concrete batch with pairwise-distinct keys. -/
theorem C1_witness :
    ([exR1, exR3].map recordKey).Nodup ∧
      (2023 : Int) ∈ batchYears [exR1, exR3] ∧
      ((((write_parquet 1 [exR1, exR3] "h" emptyStore).1
          ⟨"h", 2023, 1⟩).getD []).map keyOf).Nodup :=
  ⟨by decide, by decide,
    C1_write_dedup_of_key_nodup 1 [exR1, exR3] "h" emptyStore (by decide) 2023
      (by decide)⟩

/-- C2 counterexample: the claim fails as stated.  Writing the batch
`[exR1, exR2]` (two records with one key, different prices) into an empty
store once keeps both rows; writing it a second time deduplicates and
drops the `exR2` row, so the partition's row set differs between one and
two runs. -/
theorem C2_counterexample :
    toRow 1 exR2 ∈
        (((write_parquet 1 [exR1, exR2] "h" emptyStore).1
          ⟨"h", 2023, 1⟩).getD []) ∧
      toRow 1 exR2 ∉
        (((write_parquet 1 [exR1, exR2] "h"
            (write_parquet 1 [exR1, exR2] "h" emptyStore).1).1
          ⟨"h", 2023, 1⟩).getD []) := by
  decide

/-- C2 (amended): provided the input batch contains no two records sharing
`(timestamp, shop_id)`, running `write_parquet` twice with the same batch
from any starting store leaves every partition — touched or not — exactly
as after running it once. -/
theorem C2_write_idempotent
    (appid : Int) (records : List Record) (dir : String) (store : Store)
    (hk : (records.map recordKey).Nodup) (a : Address) :
    (write_parquet appid records dir
        (write_parquet appid records dir store).1).1 a
      = (write_parquet appid records dir store).1 a := by
  obtain ⟨ad, ay, aid⟩ := a
  by_cases hd : ad = dir
  · by_cases hap : aid = appid
    · by_cases hyy : ay ∈ batchYears records
      · subst hd hap
        have h1 := @write_parquet_apply aid records ad store ay hyy
        have h2 := @write_parquet_apply aid records ad
          (write_parquet aid records ad store).1 ay hyy
        rw [h2, h1]
        exact congrArg some (mergeGroup_idem (group_keys_nodup hk))
      · exact write_parquet_frame (Or.inr (Or.inr hyy))
    · exact write_parquet_frame (Or.inr (Or.inl hap))
  · exact write_parquet_frame (Or.inl hd)

/-- Witness for C2 at a concrete batch with pairwise-distinct keys. -/
theorem C2_witness :
    ([exR1, exR3].map recordKey).Nodup ∧
      (write_parquet 1 [exR1, exR3] "h"
          (write_parquet 1 [exR1, exR3] "h" emptyStore).1).1 ⟨"h", 2023, 1⟩
        = (write_parquet 1 [exR1, exR3] "h" emptyStore).1 ⟨"h", 2023, 1⟩ :=
  ⟨by decide,
    C2_write_idempotent 1 [exR1, exR3] "h" emptyStore (by decide) ⟨"h", 2023, 1⟩⟩

/-- C3 counterexample: the claim fails as stated.  The store writes the
target file in place (`group.to_parquet(out_file)`), so an interruption
can expose an intermediate state — here the one-element prefix `[3]` of
the new bytes — that is neither the old contents nor the new. -/
theorem C3_counterexample :
    ¬ ∀ s ∈ directWriteCrashStates [1, 2] [3, 4], s = [1, 2] ∨ s = [3, 4] := by
  decide

/-- C3 (amended): a crash during a partition write leaves either the old
file contents or some (possibly empty, possibly truncated) prefix of the
new contents; the write is a direct in-place overwrite, not an atomic
temporary-file-then-rename replacement. -/
theorem C3_crash_old_or_prefix (old new s : List Nat)
    (h : s ∈ directWriteCrashStates old new) :
    s = old ∨ ∃ k, k ≤ new.length ∧ s = new.take k := by
  rcases List.mem_cons.mp h with h1 | h1
  · exact Or.inl h1
  · rcases List.mem_map.mp h1 with ⟨k, hk, rfl⟩
    exact Or.inr ⟨k, Nat.le_of_lt_succ (List.mem_range.mp hk), rfl⟩

/-- Witness for C3 at a concrete truncated crash state. -/
theorem C3_witness :
    [3] ∈ directWriteCrashStates [1, 2] [3, 4] ∧
      ([3] = [1, 2] ∨
        ∃ k, k ≤ ([3, 4] : List Nat).length ∧ [3] = [3, 4].take k) :=
  ⟨by decide, C3_crash_old_or_prefix [1, 2] [3, 4] [3] (by decide)⟩

/-- C4: merging never loses data.  Under the partition invariant that
every stored row carries the partition's own `appid`, every full
deduplication key `(timestamp, shop_id, native_id)` present at an address
before a `write_parquet` call is still present afterwards; an existing
partition file is never removed by a write, nor by any orchestrator run. -/
theorem C4_merge_never_loses
    (appid : Int) (records : List Record) (dir : String) (store : Store)
    (a : Address) (hwf : ∀ r ∈ (store a).getD [], r.appid = a.appid) :
    (∀ k ∈ ((store a).getD []).map fullKey,
        k ∈ (((write_parquet appid records dir store).1 a).getD []).map
          fullKey) ∧
      ((store a).isSome → ((write_parquet appid records dir store).1 a).isSome) ∧
      ∀ (skip : Bool) (env : Int → ItemEnv) (apps : List Int) (stats : Stats)
          (store0 : Store), (store0 a).isSome →
        ((runMain skip dir env apps (stats, store0)).2 a).isSome := by
  refine ⟨?_, fun h => write_parquet_isSome h,
    fun skip env apps stats store0 h => runMain_isSome h⟩
  intro k hk
  obtain ⟨ad, ay, aid⟩ := a
  by_cases hd : ad = dir
  · by_cases hap : aid = appid
    · by_cases hyy : ay ∈ batchYears records
      · subst hd hap
        rw [@write_parquet_apply aid records ad store ay hyy,
          Option.getD_some]
        cases hst : store ⟨ad, ay, aid⟩ with
        | none => rw [hst] at hk; simp at hk
        | some existing =>
          rw [hst] at hk hwf
          rw [Option.getD_some] at hk hwf
          rcases List.mem_map.mp hk with ⟨r, hr, rfl⟩
          have hmem : keyOf r ∈
              (drop_duplicates (existing ++
                ((records.map (toRow aid)).filter
                  fun row => row.year = ay))).map keyOf :=
            key_mem_drop_duplicates (List.mem_append.mpr (Or.inl hr))
          rcases List.mem_map.mp hmem with ⟨r2, hr2, hkey⟩
          refine List.mem_map.mpr ⟨r2, hr2, ?_⟩
          have hr2mem := mem_of_mem_drop_duplicates hr2
          have happ2 : r2.appid = aid := by
            rcases List.mem_append.mp hr2mem with hE | hG
            · exact hwf r2 hE
            · exact appid_of_mem_map (List.mem_filter.mp hG).1
          have happ : r.appid = aid := hwf r hr
          simp only [keyOf, Prod.mk.injEq] at hkey
          simp only [fullKey, Prod.mk.injEq]
          exact ⟨hkey.1, hkey.2, happ2.trans happ.symm⟩
      · rw [write_parquet_frame (Or.inr (Or.inr hyy))]; exact hk
    · rw [write_parquet_frame (Or.inr (Or.inl hap))]; exact hk
  · rw [write_parquet_frame (Or.inl hd)]; exact hk

/-- Witness for C4 at a concrete pre-existing partition. -/
theorem C4_witness :
    (∀ r ∈ (store1 ⟨"h", 2023, 1⟩).getD [],
        r.appid = (Address.mk "h" 2023 1).appid) ∧
      ((∀ k ∈ ((store1 ⟨"h", 2023, 1⟩).getD []).map fullKey,
          k ∈ (((write_parquet 1 [exR2] "h" store1).1
            ⟨"h", 2023, 1⟩).getD []).map fullKey) ∧
        ((store1 ⟨"h", 2023, 1⟩).isSome →
          ((write_parquet 1 [exR2] "h" store1).1 ⟨"h", 2023, 1⟩).isSome) ∧
        ∀ (skip : Bool) (env : Int → ItemEnv) (apps : List Int)
            (stats : Stats) (store0 : Store),
          (store0 ⟨"h", 2023, 1⟩).isSome →
          ((runMain skip "h" env apps (stats, store0)).2
            ⟨"h", 2023, 1⟩).isSome) :=
  ⟨by decide, C4_merge_never_loses 1 [exR2] "h" store1 ⟨"h", 2023, 1⟩ (by decide)⟩

/-- C5: partition routing.  Every row present at any address after a
`write_parquet` call either was already stored there or originates from a
batch record and sits exactly at the address
`(output_dir, record.timestamp.year, appid)` — the stable, deterministic
address function of `(partition_key, native_id)`. -/
theorem C5_partition_routing
    (appid : Int) (records : List Record) (dir : String) (store : Store)
    (a : Address) (r : Row)
    (h : r ∈ ((write_parquet appid records dir store).1 a).getD []) :
    r ∈ (store a).getD [] ∨
      ∃ rec, rec ∈ records ∧ r = toRow appid rec ∧
        a = ⟨dir, rec.timestamp.year, appid⟩ := by
  cases records with
  | nil => exact Or.inl h
  | cons x xs =>
    unfold write_parquet at h
    rw [if_neg (by simp)] at h
    rcases writeFold_row_origin h with h1 | ⟨hdf, ha⟩
    · exact Or.inl h1
    · rcases List.mem_map.mp hdf with ⟨rec, hrec, rfl⟩
      exact Or.inr ⟨rec, hrec, rfl, ha⟩

/-- Witness for C5 at a concrete single-record write. -/
theorem C5_witness :
    toRow 1 exR1 ∈
        (((write_parquet 1 [exR1] "h" emptyStore).1 ⟨"h", 2023, 1⟩).getD []) ∧
      (toRow 1 exR1 ∈ (emptyStore ⟨"h", 2023, 1⟩).getD [] ∨
        ∃ rec, rec ∈ [exR1] ∧ toRow 1 exR1 = toRow 1 rec ∧
          (⟨"h", 2023, 1⟩ : Address) = ⟨"h", rec.timestamp.year, 1⟩) :=
  ⟨by decide,
    C5_partition_routing 1 [exR1] "h" emptyStore ⟨"h", 2023, 1⟩
      (toRow 1 exR1) (by decide)⟩

/-- C6: calling `write_parquet` with an empty record list returns 0 and
leaves the whole store untouched. -/
theorem C6_empty_records_noop (appid : Int) (output_dir : String)
    (store : Store) : write_parquet appid [] output_dir store = (store, 0) :=
  rfl

/-- C7 counterexample: the claim fails as stated.  On two candidates tied
at 500 total reviews and fetched in the order `[appid 20, appid 10]`, the
code's stable sort keeps the fetch order `[20, 10]`, not the
`native_id`-ascending order `[10, 20]` demanded by the spec's tie-break
rule (`claimed_top_apps`). -/
theorem C7_counterexample :
    get_top_apps 2 [spyTie20, spyTie10]
      ≠ claimed_top_apps 2 [spyTie20, spyTie10] := by
  decide

theorem insertBy_appGE_filter_of_key {v : Int} {x : App} (s : List App)
    (hx : x.total_reviews = v) :
    (insertBy appGE x s).filter (fun a => decide (a.total_reviews = v))
      = x :: s.filter fun a => decide (a.total_reviews = v) := by
  induction s with
  | nil => simp [insertBy, hx]
  | cons h t ih =>
    by_cases hle : appGE x h = true
    · simp [insertBy, hle, List.filter_cons, hx]
    · have hlt : ¬ h.total_reviews ≤ x.total_reviews := by
        simpa [appGE] using hle
      have hne : h.total_reviews ≠ v := by
        intro hc
        exact hlt (le_of_eq (hc.trans hx.symm))
      simp [insertBy, hle, List.filter_cons, hne, ih]

theorem insertBy_appGE_filter_of_ne {v : Int} {x : App} (s : List App)
    (hx : x.total_reviews ≠ v) :
    (insertBy appGE x s).filter (fun a => decide (a.total_reviews = v))
      = s.filter fun a => decide (a.total_reviews = v) := by
  induction s with
  | nil => simp [insertBy, hx]
  | cons h t ih =>
    by_cases hle : appGE x h = true
    · simp [insertBy, hle, List.filter_cons, hx]
    · simp [insertBy, hle, List.filter_cons, ih]

theorem sortBy_appGE_filter_stable (l : List App) (v : Int) :
    (sortBy appGE l).filter (fun a => decide (a.total_reviews = v))
      = l.filter fun a => decide (a.total_reviews = v) := by
  induction l with
  | nil => rfl
  | cons x xs ih =>
    by_cases hx : x.total_reviews = v
    · simp only [sortBy]
      rw [insertBy_appGE_filter_of_key (sortBy appGE xs) hx, ih,
        List.filter_cons]
      simp [hx]
    · simp only [sortBy]
      rw [insertBy_appGE_filter_of_ne (sortBy appGE xs) hx, ih,
        List.filter_cons]
      simp [hx]

theorem filter_take_exists {α : Type} (p : α → Bool) (n : Nat) (l : List α) :
    ∃ m, (l.take n).filter p = (l.filter p).take m := by
  induction l generalizing n with
  | nil => exact ⟨0, by simp⟩
  | cons x t ih =>
    cases n with
    | zero => exact ⟨0, by simp⟩
    | succ k =>
      rcases ih k with ⟨m, hm⟩
      by_cases hx : p x = true
      · exact ⟨m + 1, by simp [List.filter_cons, hx, hm]⟩
      · exact ⟨m, by simp [List.filter_cons, hx, hm]⟩

/-- C7 (amended): the selector returns exactly `min(limit, population
size)` items ordered by `total_reviews` descending, with ties retaining
the fetch order of the population (Python's sort is stable) rather than
`native_id` ascending; the spec's concrete scenario (500 vs 900 reviews,
limit 2, selection `[20, 10]`) does hold.  The tie clause is captured
exactly: the ranking is a permutation of the fetched population in which
every class of tied items (equal `total_reviews`) appears exactly in its
fetch order, and the selection is precisely the first `n` of that
ranking, so each tie class of the selection is a fetch-order prefix of
the population's tie class. -/
theorem C7_selector_order :
    (∀ (n : Nat) (data : List SpyEntry),
        (get_top_apps n data).length = min n data.length ∧
          (get_top_apps n data).Pairwise
            fun a b => b.total_reviews ≤ a.total_reviews) ∧
      (∀ data : List SpyEntry,
        List.Perm (sortBy appGE (data.map mkApp)) (data.map mkApp)) ∧
      (∀ (data : List SpyEntry) (v : Int),
        (sortBy appGE (data.map mkApp)).filter
            (fun a => decide (a.total_reviews = v))
          = (data.map mkApp).filter fun a => decide (a.total_reviews = v)) ∧
      (∀ (n : Nat) (data : List SpyEntry) (v : Int),
        ∃ m, (get_top_apps n data).filter
            (fun a => decide (a.total_reviews = v))
          = ((data.map mkApp).filter
              fun a => decide (a.total_reviews = v)).take m) ∧
      (∀ (n : Nat) (data : List SpyEntry),
        get_top_apps n data = (sortBy appGE (data.map mkApp)).take n) ∧
      (get_top_apps 2 [⟨10, some 500, none, "A"⟩, ⟨20, some 900, none, "B"⟩]).map
          (fun a => a.appid) = [20, 10] := by
  refine ⟨?_, fun data => sortBy_perm appGE (data.map mkApp),
    fun data v => sortBy_appGE_filter_stable (data.map mkApp) v, ?_,
    fun n data => rfl, by decide⟩
  · intro n data
    constructor
    · simp [get_top_apps, List.length_take, length_sortBy]
    · have htot : ∀ a b : App, appGE a b = true ∨ appGE b a = true := by
        intro a b
        rcases Int.le_total b.total_reviews a.total_reviews with h | h
        · exact Or.inl (by simpa [appGE] using h)
        · exact Or.inr (by simpa [appGE] using h)
      have htrans : ∀ a b c : App, appGE a b = true → appGE b c = true →
          appGE a c = true := by
        intro a b c hab hbc
        simp only [appGE, decide_eq_true_eq] at hab hbc ⊢
        exact le_trans hbc hab
      have hp := pairwise_sortBy htot htrans (data.map mkApp)
      have hp2 : (sortBy appGE (data.map mkApp)).Pairwise
          fun a b => b.total_reviews ≤ a.total_reviews :=
        hp.imp fun h => of_decide_eq_true h
      exact hp2.sublist (List.take_sublist _ _)
  · intro n data v
    rcases filter_take_exists (fun a => decide (a.total_reviews = v)) n
      (sortBy appGE (data.map mkApp)) with ⟨m, hm⟩
    refine ⟨m, ?_⟩
    calc (get_top_apps n data).filter (fun a => decide (a.total_reviews = v))
        = ((sortBy appGE (data.map mkApp)).take n).filter
            (fun a => decide (a.total_reviews = v)) := rfl
      _ = ((sortBy appGE (data.map mkApp)).filter
            (fun a => decide (a.total_reviews = v))).take m := hm
      _ = ((data.map mkApp).filter
            fun a => decide (a.total_reviews = v)).take m := by
          rw [sortBy_appGE_filter_stable]

/-- C8: per-item isolation.  Whenever an item's environment makes its
pipeline body raise (history iteration or partition write), the run over
that item equals incrementing `errores` by one and continuing the run
over the remaining candidates from an otherwise unchanged state: no
per-item failure terminates the run. -/
theorem C8_item_error_isolated
    (skip : Bool) (dir : String) (env : Int → ItemEnv) (appid : Int)
    (rest : List Int) (stats : Stats) (store : Store)
    (herr : (bodyOutcome skip (env appid)).isError = true) :
    runMain skip dir env (appid :: rest) (stats, store)
      = runMain skip dir env rest
          ({ stats with errores := stats.errores + 1 }, store) := by
  have hp : processItem skip dir appid (env appid) (stats, store)
      = ({ stats with errores := stats.errores + 1 }, store) := by
    unfold processItem
    cases hb : bodyOutcome skip (env appid) with
    | raisedFetch => rfl
    | raisedWrite records => rfl
    | filtered => rw [hb] at herr; simp [Outcome.isError] at herr
    | noId => rw [hb] at herr; simp [Outcome.isError] at herr
    | noHist => rw [hb] at herr; simp [Outcome.isError] at herr
    | wrote records => rw [hb] at herr; simp [Outcome.isError] at herr
  show runMain skip dir env rest
      (processItem skip dir appid (env appid) (stats, store)) = _
  rw [hp]

/-- Witness for C8: item 7 raises during the history fetch, item 8 is
still processed. -/
theorem C8_witness :
    (bodyOutcome false (exEnv 7)).isError = true ∧
      runMain false "h" exEnv [7, 8] (initStats, emptyStore)
        = runMain false "h" exEnv [8]
            ({ initStats with errores := initStats.errores + 1 },
              emptyStore) :=
  ⟨by decide,
    C8_item_error_isolated false "h" exEnv 7 [8] initStats emptyStore
      (by decide)⟩

/-- C9 counterexample: the claim fails as stated.  For an item whose ITAD
lookup raises after the retry adapter exhausted its retries on transient
errors, the broad `except` in `get_itad_id` returns `None`, so the
orchestrator increments `sin_itad_id` (no_identity) to 1 and leaves
`errores` at 0 — the opposite of the claimed counters. -/
theorem C9_counterexample :
    (processItem false "h" 7 envTransient (initStats, emptyStore)).1.errores
        = 0 ∧
      (processItem false "h" 7 envTransient
        (initStats, emptyStore)).1.sin_itad_id = 1 := by
  decide

/-- C9 (amended): every resolver outcome that is not a 200 response with
`found == true` — a non-success status, a body without a mapping, any
raised exception, and in particular transient-error retry exhaustion —
yields `None` from `get_itad_id`, and the orchestrator then increments
`sin_itad_id` by one, never `errores`, and leaves the store untouched. -/
theorem C9_resolver_failure_counts_no_identity
    (skip : Bool) (dir : String) (appid : Int) (e : ItemEnv)
    (stats : Stats) (store : Store)
    (hnone : get_itad_id e.lookup = none)
    (hpass : skip = true ∨ e.itemIsGame = true) :
    processItem skip dir appid e (stats, store)
      = ({ stats with sin_itad_id := stats.sin_itad_id + 1 }, store) := by
  have hb : bodyOutcome skip e = Outcome.noId := by
    unfold bodyOutcome
    rcases hpass with h | h
    · rw [h]; simp [hnone]
    · rw [h]; simp [hnone]
  unfold processItem
  rw [hb]

/-- Witness for C9 at the transient-retry-exhaustion environment. -/
theorem C9_witness :
    get_itad_id envTransient.lookup = none ∧
      processItem false "h" 7 envTransient (initStats, emptyStore)
        = ({ initStats with sin_itad_id := initStats.sin_itad_id + 1 },
            emptyStore) :=
  ⟨by decide,
    C9_resolver_failure_counts_no_identity false "h" 7 envTransient initStats
      emptyStore (by decide) (Or.inr (by decide))⟩

/-- C10: each candidate item leaves the four counters `sin_itad_id`,
`sin_historial`, `procesados`, `errores` monotone and increments their sum
by at most one — so at most one of them — and an item rejected by the
`is_game` pre-filter changes none of the statistics at all. -/
theorem C10_at_most_one_counter
    (skip : Bool) (dir : String) (appid : Int) (e : ItemEnv)
    (stats : Stats) (store : Store) :
    (stats.sin_itad_id
        ≤ (processItem skip dir appid e (stats, store)).1.sin_itad_id ∧
      stats.sin_historial
        ≤ (processItem skip dir appid e (stats, store)).1.sin_historial ∧
      stats.procesados
        ≤ (processItem skip dir appid e (stats, store)).1.procesados ∧
      stats.errores
        ≤ (processItem skip dir appid e (stats, store)).1.errores) ∧
    ((processItem skip dir appid e (stats, store)).1.sin_itad_id
        + (processItem skip dir appid e (stats, store)).1.sin_historial
        + (processItem skip dir appid e (stats, store)).1.procesados
        + (processItem skip dir appid e (stats, store)).1.errores
      ≤ stats.sin_itad_id + stats.sin_historial + stats.procesados
          + stats.errores + 1) ∧
    (bodyOutcome skip e = Outcome.filtered →
      (processItem skip dir appid e (stats, store)).1 = stats) := by
  unfold processItem
  cases hb : bodyOutcome skip e <;> simp <;> omega

/-- Witness for C10 at a concrete pre-filtered item. -/
theorem C10_witness :
    (initStats.sin_itad_id
        ≤ (processItem false "h" 7 envNotGame
            (initStats, emptyStore)).1.sin_itad_id ∧
      initStats.sin_historial
        ≤ (processItem false "h" 7 envNotGame
            (initStats, emptyStore)).1.sin_historial ∧
      initStats.procesados
        ≤ (processItem false "h" 7 envNotGame
            (initStats, emptyStore)).1.procesados ∧
      initStats.errores
        ≤ (processItem false "h" 7 envNotGame
            (initStats, emptyStore)).1.errores) ∧
    ((processItem false "h" 7 envNotGame (initStats, emptyStore)).1.sin_itad_id
        + (processItem false "h" 7 envNotGame
            (initStats, emptyStore)).1.sin_historial
        + (processItem false "h" 7 envNotGame
            (initStats, emptyStore)).1.procesados
        + (processItem false "h" 7 envNotGame
            (initStats, emptyStore)).1.errores
      ≤ initStats.sin_itad_id + initStats.sin_historial + initStats.procesados
          + initStats.errores + 1) ∧
    (bodyOutcome false envNotGame = Outcome.filtered →
      (processItem false "h" 7 envNotGame (initStats, emptyStore)).1
        = initStats) :=
  C10_at_most_one_counter false "h" 7 envNotGame initStats emptyStore

end SteamPriceHistory
